import Mathlib

/-!
Verification development for `snapatac2-core/src/export.rs`.

The file shallowly embeds the three exported operations of that module:

* `export_insertions_as_bigwig` — aggregation of a sparse per-cell insertion
  matrix into normalized, run-merged, chromosome-clipped coverage intervals
  (the list handed to the `BigWigWrite` sink);
* `export_insertions_as_bed` — the single-pass grouped BED export (modelled by
  the write trace it produces and the group-to-path mapping it returns);
* `call_peaks` / `macs2` — orchestration of the external peak caller, modelled
  over an abstract description of each subprocess run.

Machine integers of the source (`u8` matrix values, `u32` accumulated
counts, `u64` coordinates) are modelled as `ℕ`; none of the properties proved
here involves wrap-around.  The `f32` values flowing through the coverage
pipeline are modelled exactly as rationals together with a marker for the one
non-finite value the code can produce (the NaN of `0.0 / 0.0`).
-/

/-- Division as performed on the modelled `f32` values: `none` stands for the
non-finite result of dividing by zero.  In `export_insertions_as_bigwig` a zero
divisor (`norm_factor`) forces a zero dividend (every accumulated count is
zero), so `none` stands precisely for the IEEE NaN `0.0 / 0.0`. -/
def f32div (a b : ℚ) : Option ℚ :=
  if b = 0 then none else some (a / b)

/-- Equality test on modelled `f32` values, following IEEE `PartialEq`: the
NaN marker `none` compares unequal to everything, itself included. -/
def f32eq : Option ℚ → Option ℚ → Bool
  | some a, some b => decide (a = b)
  | _, _ => false

/-- One `BedGraph<f32>` record of the source.  The field `stop` embeds the
source's `end()` coordinate (`end` is a keyword in Lean). -/
structure BedGraphF where
  chrom : String
  start : ℕ
  stop : ℕ
  value : Option ℚ
  deriving DecidableEq, Repr, Inhabited

/-- Insertion into an ascending association list; embeds
`counts.entry(i / resolution).or_insert(0) += v` on the source's
`BTreeMap<usize, u32>` (the list is kept sorted by key, matching the map's
ascending iteration order used by the later steps). -/
def addCount (k v : ℕ) : List (ℕ × ℕ) → List (ℕ × ℕ)
  | [] => [(k, v)]
  | p :: rest =>
    if k < p.1 then (k, v) :: p :: rest
    else if k = p.1 then (p.1, p.2 + v) :: rest
    else p :: addCount k v rest

/-- Aggregation loop of `export_insertions_as_bigwig`: every stored
`(column, value)` entry of the CSR matrix contributes `value` to the bin
`column / resolution`.  A `CsrMatrix<u8>` is represented by the list of its
stored entries in storage order, which is all the source reads from it
(`col_indices` zipped with `values`). -/
def aggregateCounts (entries : List (ℕ × ℕ)) (resolution : ℕ) : List (ℕ × ℕ) :=
  entries.foldl (fun m e => addCount (e.1 / resolution) e.2 m) []

/-- Normalization factor
`((total_count as f32) / 1000000.0) * ((resolution as f32) / 1000.0)`. -/
def norm_factor (total_count resolution : ℕ) : ℚ :=
  ((total_count : ℚ) / 1000000) * ((resolution : ℚ) / 1000)

/-- Construction of the `BedGraph` vector: for every `(bin, count)` pair, in
ascending bin order, look up `bin * resolution` in the genome index, set the
region's end to its start plus `resolution`, value `count / norm_factor`.
The genome index is the external collaborator `GBaseIndex`; only its
`lookup_region` contract (flat offset to chromosome and position) is used,
so it is passed as a function. -/
def makeBedGraph (counts : List (ℕ × ℕ)) (lookup : ℕ → String × ℕ)
    (resolution : ℕ) (norm : ℚ) : List BedGraphF :=
  counts.map (fun kv =>
    ⟨(lookup (kv.1 * resolution)).1, (lookup (kv.1 * resolution)).2,
      (lookup (kv.1 * resolution)).2 + resolution, f32div (kv.2 : ℚ) norm⟩)

/-- Grouping key of the source's `group_by(|x| (x.chrom().to_string(), x.value))`:
two records fall in the same run when the chromosomes are equal and the values
compare equal under `f32` `PartialEq`. -/
def sameKey (a b : BedGraphF) : Bool :=
  decide (a.chrom = b.chrom) && f32eq a.value b.value

/-- Run merging: consecutive records with the same key collapse to the first
record of the run with its end replaced by the last record's end, exactly the
`group_by … map` step of the source. -/
def mergeRuns : List BedGraphF → List BedGraphF
  | [] => []
  | x :: xs =>
    match mergeRuns xs with
    | [] => [x]
    | y :: ys =>
      if sameKey x y then ⟨x.chrom, x.start, y.stop, x.value⟩ :: ys
      else x :: y :: ys

/-- Lookup in the chromosome-size table (`chrom_sizes.get(&chr)`), modelled on
an association list. -/
def lookupSize (sizes : List (String × ℕ)) (chr : String) : Option ℕ :=
  (sizes.find? (fun p => p.1 == chr)).map Prod.snd

/-- The clipping update `if bed.end() > size { bed.set_end(size) }`. -/
def clipOne (size : ℕ) (x : BedGraphF) : BedGraphF :=
  if size < x.stop then ⟨x.chrom, x.start, size, x.value⟩ else x

/-- Clipping pass of the source: the records are grouped into consecutive
same-chromosome runs; for each run the chromosome's size is looked up (a
missing chromosome is the panic `"chromosome not found"`, modelled by `none`)
and the last record of the run is clipped.  All other records are untouched. -/
def clipLastPerChrom (sizes : List (String × ℕ)) : List BedGraphF → Option (List BedGraphF)
  | [] => some []
  | [x] =>
    match lookupSize sizes x.chrom with
    | none => none
    | some s => some [clipOne s x]
  | x :: y :: rest =>
    if x.chrom = y.chrom then
      match clipLastPerChrom sizes (y :: rest) with
      | none => none
      | some out => some (x :: out)
    else
      match lookupSize sizes x.chrom with
      | none => none
      | some s =>
        match clipLastPerChrom sizes (y :: rest) with
        | none => none
        | some out => some (clipOne s x :: out)

/-- Embedding of `export_insertions_as_bigwig` up to the hand-off to the
`BigWigWrite` sink: the value is the clipped interval list that the source
streams into the track writer; `none` models the panic raised when a
chromosome is missing from `chrom_sizes`. -/
def export_insertions_as_bigwig (entries : List (ℕ × ℕ)) (lookup : ℕ → String × ℕ)
    (chrom_sizes : List (String × ℕ)) (resolution : ℕ) : Option (List BedGraphF) :=
  let counts := aggregateCounts entries resolution
  let total : ℕ := (counts.map Prod.snd).sum
  clipLastPerChrom chrom_sizes
    (mergeRuns (makeBedGraph counts lookup resolution (norm_factor total resolution)))

/-- One item of a `ChromValues` batch entry: an aggregated insertion record
with chromosome, start, end (`stop`) and a `u32` count (`value`), as read by
`x.chrom(), x.start(), x.end(), x.value` in the source. -/
structure Event where
  chrom : String
  start : ℕ
  stop : ℕ
  value : ℕ
  deriving DecidableEq, Repr, Inhabited

/-- One `BED<4>` line written by `export_insertions_as_bed`: chromosome,
start, end (`stop`) and the name column (the fourth field, filled with the
barcode argument). -/
structure BedLine where
  chrom : String
  start : ℕ
  stop : ℕ
  name : String
  deriving DecidableEq, Repr, Inhabited

/-- Active group set of the export functions:
`group_by.iter().unique()` retained by the optional selection set.  The source
collects the labels into a `HashSet`, so only membership is meaningful; the
list produced here is one concrete enumeration of that set. -/
def activeGroups (group_by : List String) (selections : Option (List String)) : List String :=
  match selections with
  | none => group_by.dedup
  | some sel => group_by.dedup.filter (fun g => decide (g ∈ sel))

/-- Label sanitization `x.replace("/", "+")` used when building filenames;
for the one-character pattern and replacement this is a character map. -/
def sanitizeLabel (g : String) : String :=
  String.mk (g.data.map (fun c => if c = '/' then '+' else c))

/-- Output path of a group's file:
`dir.join(prefix.to_string() + label.replace("/", "+") + suffix)`. -/
def export_bed_path (dir pfx sfx g : String) : String :=
  dir ++ "/" ++ (pfx ++ sanitizeLabel g ++ sfx)

/-- Splitting a character list at every occurrence of a separator. -/
def splitChars (sep : Char) : List Char → List (List Char)
  | [] => [[]]
  | c :: cs =>
    let r := splitChars sep cs
    if c = sep then [] :: r
    else (c :: r.headD []) :: r.tail

/-- Path components in the sense of Rust's `std::path`: the pieces between
`/` separators, with empty pieces dropped. -/
def pathComponents (p : String) : List String :=
  ((splitChars '/' p.data).map String.mk).filter (fun s => !(s == ""))

/-- Embedding of Rust's `Path::ends_with`, which compares whole path
components (so `Path::new("out/A.bed.gz").ends_with(".gz")` is `false`: the
only way a path ends with the one-component path `".gz"` is for its last
component to be the literal file name `".gz"`). -/
def rust_path_ends_with (p child : String) : Bool :=
  (pathComponents child).isSuffixOf (pathComponents p)

/-- The writer-selection test of `export_insertions_as_bed`:
`filename.ends_with(".gz")` on the `PathBuf` of the group's output file;
`true` selects the `GzEncoder` branch, `false` the plain `BufWriter`. -/
def export_bed_uses_gzip (filename : String) : Bool :=
  rust_path_ends_with filename ".gz"

/-- String-suffix reading of the compressed-name convention (what the spec
means by "a filename ending in `.gz`", i.e. `str::ends_with`); kept for
comparison with the component-based test the source actually performs. -/
def filename_has_gz_suffix (filename : String) : Bool :=
  (".gz" : String).data.isSuffixOf filename.data

/-- Lines written for one cell of a batch: if the cell's group (looked up at
its global index) owns an active stream, every event expands into `value`
copies of the 4-column record `(chrom, start, end, barcode)` tagged with the
group whose file receives them; otherwise nothing is written.  Out-of-range
index accesses are the caller's contract violation (a Rust panic); the claims
using this definition assume aligned arrays, under which `getD` coincides
with the panicking index. -/
def cellWrites (barcodes group_by active : List String) (idx : ℕ) (cell : List Event) :
    List (String × BedLine) :=
  let g := group_by.getD idx ""
  if g ∈ active then
    cell.flatMap (fun e =>
      List.replicate e.value (g, ⟨e.chrom, e.start, e.stop, barcodes.getD idx ""⟩))
  else []

/-- Lines written for one batch, enumerating its cells from the running
global offset (`accum + i` in the source). -/
def batchWrites (barcodes group_by active : List String) : ℕ → List (List Event) → List (String × BedLine)
  | _, [] => []
  | idx, cell :: cells =>
    cellWrites barcodes group_by active idx cell ++
      batchWrites barcodes group_by active (idx + 1) cells

/-- The `try_fold` over batches of `export_insertions_as_bed`: the running
offset advances by each batch's cell count. -/
def bedWritesFrom (barcodes group_by active : List String) : ℕ → List (List (List Event)) → List (String × BedLine)
  | _, [] => []
  | accum, batch :: batches =>
    batchWrites barcodes group_by active accum batch ++
      bedWritesFrom barcodes group_by active (accum + batch.length) batches

/-- All group-tagged lines written by `export_insertions_as_bed` over the
whole insertion stream, in write order. -/
def export_bed_writes (batches : List (List (List Event))) (barcodes group_by : List String)
    (selections : Option (List String)) : List (String × BedLine) :=
  bedWritesFrom barcodes group_by (activeGroups group_by selections) 0 batches

/-- The mapping returned by `export_insertions_as_bed`: every active group
label paired with its output path. -/
def export_bed_result (group_by : List String) (selections : Option (List String))
    (dir pfx sfx : String) : List (String × String) :=
  (activeGroups group_by selections).map (fun g => (g, export_bed_path dir pfx sfx g))

/-- Observable file-system actions of `export_insertions_as_bed`: file
creations and line writes. -/
inductive FileAction where
  | create (group : String) (path : String)
  | write (group : String) (line : BedLine)
  deriving DecidableEq, Repr, Inhabited

/-- Kind test for `FileAction.create`. -/
def FileAction.isCreate : FileAction → Bool
  | .create _ _ => true
  | .write _ _ => false

/-- Kind test for `FileAction.write`. -/
def FileAction.isWrite : FileAction → Bool
  | .create _ _ => false
  | .write _ _ => true

/-- Action trace of `export_insertions_as_bed`: the source first builds the
`files` map — creating one file per active group — and only then folds over
the insertion stream performing the writes. -/
def export_bed_trace (batches : List (List (List Event))) (barcodes group_by : List String)
    (selections : Option (List String)) (dir pfx sfx : String) : List FileAction :=
  ((activeGroups group_by selections).map
      (fun g => FileAction.create g (export_bed_path dir pfx sfx g))) ++
    ((export_bed_writes batches barcodes group_by selections).map
      (fun w => FileAction.write w.1 w.2))

/-- Abstract description of one run of the external `macs2` subprocess.
`spawn_ok` is whether `Command::output()` returned `Ok` (it does whenever the
process could be spawned and awaited, regardless of its exit status);
`exit_ok` is whether the process exited with status zero — the source never
reads this field, which is exactly the point of claim C3; `peak_file` is the
content of `NA_peaks.narrowPeak` (each line already split on tabs) if the
file exists afterwards. -/
structure ProcOutcome where
  spawn_ok : Bool
  exit_ok : Bool
  peak_file : Option (List (List String))
  deriving DecidableEq, Repr

/-- Decimal parse of `str::parse::<u64>()` restricted to plain digit strings
(the score fields the peak caller emits); any other content is a parse
failure. -/
def parseU64 (s : String) : Option ℕ :=
  if s.data.isEmpty then none
  else s.data.foldl (fun acc c =>
    match acc with
    | none => none
    | some n => if '0' ≤ c ∧ c ≤ '9' then some (n * 10 + (c.toNat - '0'.toNat)) else none)
    (some 0)

/-- Score capping of one output line: field 4 is parsed as `u64` (a parse
failure or a missing field is an `unwrap` panic, modelled by `none`) and
replaced by `"1000"` when above 1000. -/
def capLine (strs : List String) : Option (List String) :=
  match parseU64 (strs.getD 4 "") with
  | none => none
  | some n => some (if 1000 < n then strs.set 4 "1000" else strs)

/-- Embedding of the `macs2` helper: an `Err` from `Command::output()` (the
process could not be run) yields the error `"macs2 command did not exit
properly"`; a missing `NA_peaks.narrowPeak` yields the error from
`File::open`; otherwise every line is score-capped and the rewritten lines
(standing for the written output file) are returned.  The exit status of the
subprocess is never consulted. -/
def macs2 (p : ProcOutcome) : Except String (List (List String)) :=
  if p.spawn_ok = false then Except.error "macs2 command did not exit properly"
  else
    match p.peak_file with
    | none => Except.error "NA_peaks.narrowPeak: cannot find the peak file"
    | some ls =>
      match ls.mapM capLine with
      | none => Except.error "panic while rewriting the score column"
      | some out => Except.ok out

/-- Rust's `collect::<Result<…>>`: the whole collection fails as soon as any
element is an error. -/
def collectExcept {α : Type} : List (Except String α) → Except String (List α)
  | [] => Except.ok []
  | Except.error e :: _ => Except.error e
  | Except.ok a :: rest =>
    match collectExcept rest with
    | Except.error e => Except.error e
    | Except.ok tl => Except.ok (a :: tl)

/-- Observable actions of `call_peaks` before and around the subprocess
fan-out. -/
inductive PeakAction where
  | createOutDir
  | createTempDir
  | exportBedFiles
  | runGroup (group : String)
  deriving DecidableEq, Repr

/-- The arguments `call_peaks` hands to `export_bed`: the `group_by` array is
passed for both the `barcodes` and the `group_by` parameter
(`self.export_bed(group_by, group_by, selections, …)`). -/
def call_peaks_export_bed_args (group_by : List String) : List String × List String :=
  (group_by, group_by)

/-- Embedding of `call_peaks`: the `which("macs2")` guard runs first — when
the binary is not resolvable the function returns the `ensure!` error with no
action taken.  Otherwise the output directory and the temporary directory are
created, the BED files are exported, and one subprocess per group runs, the
per-group results being collected into a single `Result`.  Directory and
export failures of the success path are collaborator failures abstracted away
here; each group's subprocess run is described by its `ProcOutcome`. -/
def call_peaks (macs2_on_path : Bool) (groups : List (String × ProcOutcome)) :
    List PeakAction × Except String (List (String × List (List String))) :=
  if macs2_on_path then
    (PeakAction.createOutDir :: PeakAction.createTempDir :: PeakAction.exportBedFiles ::
        groups.map (fun g => PeakAction.runGroup g.1),
      collectExcept (groups.map (fun g => (macs2 g.2).map (fun ls => (g.1, ls)))))
  else
    ([], Except.error "Cannot find macs2; please make sure macs2 has been installed")

/-- C1: evaluation at the failing input.  For the group `"A"` exported with
the suffix `".bed.gz"` (exactly how `call_peaks` invokes the export), the
resulting filename ends in `".gz"` as a string — the spec's recognized
compressed suffix — yet the writer-selection test of the source
(`PathBuf::ends_with(".gz")`, which compares whole path components) is
`false`, so the stream is written as buffered plain text, not through the
gzip filter. -/
theorem c1_gzip_check_mismatch_eval :
    filename_has_gz_suffix (export_bed_path "out" "" ".bed.gz" "A") = true ∧
    export_bed_uses_gzip (export_bed_path "out" "" ".bed.gz" "A") = false := by
  constructor <;> decide

/-- C2 counterexample: a matrix with one explicitly stored zero entry has
total accumulated count zero, yet the coverage aggregation does not produce
an empty track — it emits one interval whose value is the NaN of dividing
zero by the zero normalization factor (`none` in this model). -/
theorem c2_zero_total_count_counterexample :
    ((aggregateCounts [(0, 0)] 1).map Prod.snd).sum = 0 ∧
    export_insertions_as_bigwig [(0, 0)] (fun _ => ("chr1", 0)) [("chr1", 1000)] 1 =
      some [⟨"chr1", 0, 1, none⟩] ∧
    export_insertions_as_bigwig [(0, 0)] (fun _ => ("chr1", 0)) [("chr1", 1000)] 1 ≠
      some [] := by
  refine ⟨rfl, ?_, ?_⟩ <;>
    simp [export_insertions_as_bigwig, aggregateCounts, addCount, makeBedGraph, mergeRuns,
      clipLastPerChrom, clipOne, lookupSize, norm_factor, f32div]

/-- C2 (amended): for every input matrix with no stored entries the coverage
aggregation produces an empty track with zero intervals; the zero-total-count
case is handled this way only because such a matrix contributes no bins, not
by a special case (explicitly stored zeros defeat it, see the
counterexample). -/
theorem c2_empty_matrix_empty_track (lookup : ℕ → String × ℕ)
    (chrom_sizes : List (String × ℕ)) (resolution : ℕ) :
    export_insertions_as_bigwig [] lookup chrom_sizes resolution = some [] := rfl

/-- C3 counterexample: a subprocess run that exits abnormally (non-zero
status) but still leaves `NA_peaks.narrowPeak` in place is not detected —
`macs2` returns `Ok` because the source never inspects the exit status of
`Command::output()`. -/
theorem c3_abnormal_exit_not_detected :
    macs2 ⟨true, false, some [["chr1", "0", "10", "p", "42", "."]]⟩ =
      Except.ok [["chr1", "0", "10", "p", "42", "."]] := rfl

/-- Helper: Rust's `collect::<Result<…>>` fails whenever any element of the
collected sequence is an error. -/
theorem collectExcept_error_of_mem {α : Type} {l : List (Except String α)}
    (h : ∃ x ∈ l, ∃ e, x = Except.error e) :
    ∃ e, collectExcept l = Except.error e := by
  induction l with
  | nil => simp at h
  | cons hd tl ih =>
    cases hd with
    | error e => exact ⟨e, rfl⟩
    | ok a =>
      obtain ⟨x, hx, e, he⟩ := h
      rcases List.mem_cons.mp hx with h1 | h2
      · subst h1; simp at he
      · obtain ⟨e', he'⟩ := ih ⟨x, h2, e, he⟩
        exact ⟨e', by simp [collectExcept, he']⟩

/-- C3 (amended): a peak-calling subprocess that cannot be run
(`Command::output()` returns `Err`) or that omits its expected output file
yields an error result for that group — the exit status itself is never
checked — and the whole `call_peaks` invocation fails whenever any group's
result is an error. -/
theorem c3_subprocess_failure_semantics :
    (∀ p : ProcOutcome, p.spawn_ok = false ∨ p.peak_file = none →
      ∃ e, macs2 p = Except.error e) ∧
    (∀ groups : List (String × ProcOutcome),
      (∃ g ∈ groups, ∃ e, macs2 g.2 = Except.error e) →
      ∃ e, (call_peaks true groups).2 = Except.error e) := by
  constructor
  · intro p hp
    rcases hp with h | h
    · exact ⟨"macs2 command did not exit properly", by simp [macs2, h]⟩
    · by_cases hs : p.spawn_ok = false
      · exact ⟨"macs2 command did not exit properly", by simp [macs2, hs]⟩
      · exact ⟨"NA_peaks.narrowPeak: cannot find the peak file", by simp [macs2, hs, h]⟩
  · intro groups hg
    obtain ⟨g, hgmem, e, hge⟩ := hg
    have hmem : (macs2 g.2).map (fun ls => (g.1, ls)) ∈
        groups.map (fun g => (macs2 g.2).map (fun ls => (g.1, ls))) :=
      List.mem_map_of_mem _ hgmem
    rw [hge] at hmem
    have := collectExcept_error_of_mem ⟨Except.error e, hmem, e, rfl⟩
    simpa [call_peaks] using this

/-- C3 witness: concrete instances of both amended guarantees. -/
theorem c3_subprocess_failure_semantics_witness :
    (∃ e, macs2 ⟨false, true, none⟩ = Except.error e) ∧
    (∃ e, (call_peaks true [("A", ⟨false, true, none⟩)]).2 = Except.error e) :=
  ⟨c3_subprocess_failure_semantics.1 ⟨false, true, none⟩ (Or.inl rfl),
   c3_subprocess_failure_semantics.2 [("A", ⟨false, true, none⟩)]
     ⟨("A", ⟨false, true, none⟩), by simp,
      c3_subprocess_failure_semantics.1 ⟨false, true, none⟩ (Or.inl rfl)⟩⟩

/-- C4 counterexample: with a genome index that is inconsistent with the
chromosome-size table (bin 0 at `chr1:200`, bin 1 at `chr1:300`, declared
length 150), the aggregation succeeds — no error is raised although both
region starts lie beyond the chromosome length.  Only the last interval of
the chromosome run is truncated: the first output interval keeps
`end = 201 > 150`, violating the clipping invariant, and the second becomes
`start = 300 > end = 150`, violating `start < end`. -/
theorem c4_clipping_counterexample :
    export_insertions_as_bigwig [(0, 1), (1, 2)]
        (fun n => if n = 0 then ("chr1", 200) else ("chr1", 300)) [("chr1", 150)] 1 =
      some [⟨"chr1", 200, 201, some (1000000000 / 3)⟩,
        ⟨"chr1", 300, 150, some (2000000000 / 3)⟩] ∧
    ¬ (201 ≤ 150) ∧ ¬ (300 < 150) := by
  refine ⟨?_, by decide, by decide⟩
  norm_num [export_insertions_as_bigwig, aggregateCounts, addCount, makeBedGraph, mergeRuns,
    clipLastPerChrom, clipOne, lookupSize, norm_factor, f32div, sameKey, f32eq]

/-- C7: when the `macs2` binary is not resolvable on the search path,
`call_peaks` fails immediately with the configuration error of its `ensure!`
guard: the action trace is empty, so no directory, temporary directory,
BED export or subprocess happens before the failure. -/
theorem c7_missing_macs2_fails_immediately (groups : List (String × ProcOutcome)) :
    call_peaks false groups =
      ([], Except.error "Cannot find macs2; please make sure macs2 has been installed") := rfl

/-- Whether position `i` holds the last record of a consecutive
same-chromosome run of the list (for `i` within range): either it is the
final record or the next record lies on a different chromosome. -/
def isLastOfRun : List BedGraphF → ℕ → Bool
  | [], _ => true
  | [_], 0 => true
  | x :: y :: _, 0 => !(decide (y.chrom = x.chrom))
  | _ :: l, i + 1 => isLastOfRun l i

theorem clipOne_chrom (s : ℕ) (x : BedGraphF) : (clipOne s x).chrom = x.chrom := by
  by_cases h : s < x.stop <;> simp [clipOne, h]

theorem clipOne_start (s : ℕ) (x : BedGraphF) : (clipOne s x).start = x.start := by
  by_cases h : s < x.stop <;> simp [clipOne, h]

theorem clipOne_value (s : ℕ) (x : BedGraphF) : (clipOne s x).value = x.value := by
  by_cases h : s < x.stop <;> simp [clipOne, h]

theorem clipOne_stop_le (s : ℕ) (x : BedGraphF) : (clipOne s x).stop ≤ s := by
  by_cases h : s < x.stop <;> simp [clipOne, h] <;> omega

theorem clip_pointwise (sizes : List (String × ℕ)) :
    ∀ l out, clipLastPerChrom sizes l = some out → ∀ i, i < l.length →
      ((isLastOfRun l i = true →
        ∃ s, lookupSize sizes ((l.getD i default).chrom) = some s ∧
          (out.getD i default).chrom = (l.getD i default).chrom ∧
          (out.getD i default).start = (l.getD i default).start ∧
          (out.getD i default).value = (l.getD i default).value ∧
          (out.getD i default).stop ≤ s) ∧
       (isLastOfRun l i = false → out.getD i default = l.getD i default)) := by
  intro l
  induction l with
  | nil => intro out _ i hi; simp at hi
  | cons x xs ih =>
    intro out hout i hi
    cases xs with
    | nil =>
      cases i with
      | succ j => simp at hi
      | zero =>
      cases hls : lookupSize sizes x.chrom <;> simp [clipLastPerChrom, hls] at hout
      subst hout
      constructor
      · intro _
        exact ⟨_, hls, by simp [clipOne_chrom], by simp [clipOne_start],
          by simp [clipOne_value], by simpa using clipOne_stop_le _ x⟩
      · intro hf; simp [isLastOfRun] at hf
    | cons y rest =>
      by_cases hch : x.chrom = y.chrom
      · cases hcl : clipLastPerChrom sizes (y :: rest) <;>
          simp [clipLastPerChrom, hch, hcl] at hout
        subst hout
        cases i with
        | zero =>
          constructor
          · intro ht; simp [isLastOfRun, hch] at ht
          · intro _; simp
        | succ j =>
          have hj : j < (y :: rest).length := by simpa using hi
          have := ih _ hcl j hj
          simpa [isLastOfRun, List.getD_cons_succ] using this
      · cases hls : lookupSize sizes x.chrom <;> simp [clipLastPerChrom, hch, hls] at hout
        cases hcl : clipLastPerChrom sizes (y :: rest) <;> rw [hcl] at hout <;> simp at hout
        subst hout
        cases i with
        | zero =>
          constructor
          · intro _
            exact ⟨_, hls, by simp [clipOne_chrom], by simp [clipOne_start],
              by simp [clipOne_value], by simpa using clipOne_stop_le _ x⟩
          · intro hf
            simp [isLastOfRun] at hf
            exact absurd hf.symm hch
        | succ j =>
          have hj : j < (y :: rest).length := by simpa using hi
          have := ih _ hcl j hj
          simpa [isLastOfRun, List.getD_cons_succ] using this

theorem clip_none_of_missing (sizes : List (String × ℕ)) :
    ∀ l x, x ∈ l → lookupSize sizes x.chrom = none →
      clipLastPerChrom sizes l = none := by
  intro l
  induction l with
  | nil => intro x hx; simp at hx
  | cons a xs ih =>
    intro x hx hmiss
    cases xs with
    | nil =>
      have hxa : x = a := by simpa using hx
      subst hxa
      simp [clipLastPerChrom, hmiss]
    | cons y rest =>
      by_cases hch : a.chrom = y.chrom
      · rcases List.mem_cons.mp hx with rfl | hx2
        · have h2 : clipLastPerChrom sizes (y :: rest) = none :=
            ih y (List.mem_cons_self _ _) (by rwa [← hch])
          simp [clipLastPerChrom, hch, h2]
        · have h2 := ih x hx2 hmiss
          simp [clipLastPerChrom, hch, h2]
      · rcases List.mem_cons.mp hx with rfl | hx2
        · simp [clipLastPerChrom, hch, hmiss]
        · have h2 := ih x hx2 hmiss
          cases hls : lookupSize sizes a.chrom <;> simp [clipLastPerChrom, hch, hls, h2]

theorem f32eq_eq {u v : Option ℚ} (h : f32eq u v = true) : u = v := by
  cases u <;> cases v <;> simp_all [f32eq]

theorem sameKey_true_parts {a b : BedGraphF} (h : sameKey a b = true) :
    a.chrom = b.chrom ∧ a.value = b.value := by
  simp [sameKey] at h
  exact ⟨h.1, f32eq_eq h.2⟩

theorem sameKey_congr {a b a' b' : BedGraphF}
    (h1 : a'.chrom = a.chrom) (h2 : a'.value = a.value)
    (h3 : b'.chrom = b.chrom) (h4 : b'.value = b.value) :
    sameKey a' b' = sameKey a b := by
  simp [sameKey, h1, h2, h3, h4]

theorem mergeRuns_chain (l : List BedGraphF) :
    List.Chain' (fun a b => sameKey a b = false) (mergeRuns l) := by
  induction l with
  | nil => simp [mergeRuns]
  | cons x xs ih =>
    cases hm : mergeRuns xs with
    | nil => simp [mergeRuns, hm]
    | cons y ys =>
      rw [hm] at ih
      by_cases hk : sameKey x y = true
      · simp only [mergeRuns, hm, hk, if_true]
        cases ys with
        | nil => simp
        | cons z zs =>
          rw [List.chain'_cons] at ih ⊢
          refine ⟨?_, ih.2⟩
          obtain ⟨hc, hv⟩ := sameKey_true_parts hk
          have he : sameKey ⟨x.chrom, x.start, y.stop, x.value⟩ z = sameKey y z :=
            sameKey_congr hc hv rfl rfl
          rw [he]
          exact ih.1
      · have hk' : sameKey x y = false := by simpa using hk
        simp only [mergeRuns, hm, hk', if_false, Bool.false_eq_true]
        rw [List.chain'_cons]
        exact ⟨hk', ih⟩

theorem clip_forall₂ (sizes : List (String × ℕ)) :
    ∀ l out, clipLastPerChrom sizes l = some out →
      List.Forall₂ (fun a b => a.chrom = b.chrom ∧ a.value = b.value) l out := by
  intro l
  induction l with
  | nil => intro out h; simp [clipLastPerChrom] at h; subst h; exact List.Forall₂.nil
  | cons x xs ih =>
    intro out hout
    cases xs with
    | nil =>
      cases hls : lookupSize sizes x.chrom <;> simp [clipLastPerChrom, hls] at hout
      subst hout
      exact List.Forall₂.cons ⟨(clipOne_chrom _ _).symm, (clipOne_value _ _).symm⟩ List.Forall₂.nil
    | cons y rest =>
      by_cases hch : x.chrom = y.chrom
      · cases hcl : clipLastPerChrom sizes (y :: rest) <;>
          simp [clipLastPerChrom, hch, hcl] at hout
        subst hout
        exact List.Forall₂.cons ⟨rfl, rfl⟩ (ih _ hcl)
      · cases hls : lookupSize sizes x.chrom <;> simp [clipLastPerChrom, hch, hls] at hout
        cases hcl : clipLastPerChrom sizes (y :: rest) <;> rw [hcl] at hout <;> simp at hout
        subst hout
        exact List.Forall₂.cons ⟨(clipOne_chrom _ _).symm, (clipOne_value _ _).symm⟩ (ih _ hcl)

theorem chain_transfer :
    ∀ l out : List BedGraphF,
      List.Forall₂ (fun a b => a.chrom = b.chrom ∧ a.value = b.value) l out →
      List.Chain' (fun a b => sameKey a b = false) l →
      List.Chain' (fun a b => sameKey a b = false) out := by
  intro l
  induction l with
  | nil => intro out hf _; cases hf; simp
  | cons a l2 ih =>
    intro out hf hc
    cases hf with
    | cons hab hf2 =>
      rename_i b out2
      cases l2 with
      | nil => cases hf2; simp
      | cons a2 l3 =>
        cases hf2 with
        | cons hab2 hf3 =>
          rename_i b2 out3
          rw [List.chain'_cons] at hc ⊢
          refine ⟨?_, ih _ (List.Forall₂.cons hab2 hf3) hc.2⟩
          have he : sameKey b b2 = sameKey a a2 :=
            sameKey_congr hab.1.symm hab.2.symm hab2.1.symm hab2.2.symm
          rw [he]
          exact hc.1

theorem forall₂_mem_right {α β : Type} {R : α → β → Prop} :
    ∀ l out, List.Forall₂ R l out → ∀ x ∈ out, ∃ y ∈ l, R y x := by
  intro l
  induction l with
  | nil => intro out hf x hx; cases hf; simp at hx
  | cons a l2 ih =>
    intro out hf x hx
    cases hf with
    | cons hab hf2 =>
      rcases List.mem_cons.mp hx with rfl | hx2
      · exact ⟨a, List.mem_cons_self _ _, hab⟩
      · obtain ⟨y, hy, hr⟩ := ih _ hf2 x hx2
        exact ⟨y, List.mem_cons_of_mem _ hy, hr⟩

theorem mergeRuns_mem :
    ∀ l, ∀ y ∈ mergeRuns l,
      ∃ z ∈ l, z.chrom = y.chrom ∧ z.start = y.start ∧ z.value = y.value := by
  intro l
  induction l with
  | nil => simp [mergeRuns]
  | cons x xs ih =>
    intro y hy
    cases hm : mergeRuns xs with
    | nil =>
      simp only [mergeRuns, hm] at hy
      have hyx : y = x := by simpa using hy
      exact ⟨x, List.mem_cons_self _ _, by rw [hyx], by rw [hyx], by rw [hyx]⟩
    | cons y0 ys =>
      by_cases hk : sameKey x y0 = true
      · simp only [mergeRuns, hm, hk, if_true] at hy
        rcases List.mem_cons.mp hy with rfl | hy2
        · exact ⟨x, List.mem_cons_self _ _, rfl, rfl, rfl⟩
        · obtain ⟨z, hz, h⟩ := ih y (by rw [hm]; exact List.mem_cons_of_mem _ hy2)
          exact ⟨z, List.mem_cons_of_mem _ hz, h⟩
      · have hk' : sameKey x y0 = false := by simpa using hk
        simp only [mergeRuns, hm, hk', Bool.false_eq_true, if_false] at hy
        rcases List.mem_cons.mp hy with hyx | hy2
        · exact ⟨x, List.mem_cons_self _ _, by rw [hyx], by rw [hyx], by rw [hyx]⟩
        · obtain ⟨z, hz, h⟩ := ih y (by rw [hm]; exact hy2)
          exact ⟨z, List.mem_cons_of_mem _ hz, h⟩

theorem makeBedGraph_mem (counts : List (ℕ × ℕ)) (lookup : ℕ → String × ℕ)
    (res : ℕ) (norm : ℚ) :
    ∀ y ∈ makeBedGraph counts lookup res norm,
      ∃ kv ∈ counts, y.value = f32div (kv.2 : ℚ) norm := by
  intro y hy
  simp only [makeBedGraph, List.mem_map] at hy
  obtain ⟨kv, hkv, rfl⟩ := hy
  exact ⟨kv, hkv, rfl⟩

/-- C4 (amended): in every successful coverage run, the last record of each
consecutive same-chromosome run has its end truncated to at most the
chromosome's declared length (keeping chromosome, start and value), every
other record is emitted unchanged, and a chromosome missing from the size
table is a fatal error; a record whose start lies beyond the chromosome
length is not an error — its end is still silently truncated (see the
counterexample, where this produces `start ≥ end`). -/
theorem c4_clipping_behaviour :
    (∀ sizes l out, clipLastPerChrom sizes l = some out → ∀ i, i < l.length →
      ((isLastOfRun l i = true →
        ∃ s, lookupSize sizes ((l.getD i default).chrom) = some s ∧
          (out.getD i default).chrom = (l.getD i default).chrom ∧
          (out.getD i default).start = (l.getD i default).start ∧
          (out.getD i default).value = (l.getD i default).value ∧
          (out.getD i default).stop ≤ s) ∧
       (isLastOfRun l i = false → out.getD i default = l.getD i default))) ∧
    (∀ sizes l x, x ∈ l → lookupSize sizes x.chrom = none →
      clipLastPerChrom sizes l = none) :=
  ⟨fun sizes => clip_pointwise sizes, fun sizes => clip_none_of_missing sizes⟩

/-- C4 witness: concrete instance of the amended clipping guarantee. -/
theorem c4_clipping_behaviour_witness :
    ∃ s, lookupSize [("chr1", 150)]
        ((([⟨"chr1", 100, 200, some 1⟩] : List BedGraphF).getD 0 default).chrom) = some s ∧
      (([⟨"chr1", 100, 150, some 1⟩] : List BedGraphF).getD 0 default).chrom =
        (([⟨"chr1", 100, 200, some 1⟩] : List BedGraphF).getD 0 default).chrom ∧
      (([⟨"chr1", 100, 150, some 1⟩] : List BedGraphF).getD 0 default).start =
        (([⟨"chr1", 100, 200, some 1⟩] : List BedGraphF).getD 0 default).start ∧
      (([⟨"chr1", 100, 150, some 1⟩] : List BedGraphF).getD 0 default).value =
        (([⟨"chr1", 100, 200, some 1⟩] : List BedGraphF).getD 0 default).value ∧
      (([⟨"chr1", 100, 150, some 1⟩] : List BedGraphF).getD 0 default).stop ≤ s :=
  (c4_clipping_behaviour.1 [("chr1", 150)] [⟨"chr1", 100, 200, some 1⟩]
    [⟨"chr1", 100, 150, some 1⟩] (by rfl) 0 (by decide)).1 (by rfl)

/-- C5: in every successful coverage run no two adjacent output records share
the grouping key (same chromosome and `f32`-equal value) — run merging is
maximal — and the concrete two-adjacent-bin scenario (bins at `chr1:100` and
`chr1:101` with equal normalized value) yields the single merged interval
`("chr1", 100, 102, v)`. -/
theorem c5_merge_maximality :
    (∀ entries lookup sizes res out,
      export_insertions_as_bigwig entries lookup sizes res = some out →
      List.Chain' (fun a b => sameKey a b = false) out) ∧
    export_insertions_as_bigwig [(0, 1), (1, 1)]
        (fun n => if n = 0 then ("chr1", 100) else ("chr1", 101)) [("chr1", 1000)] 1 =
      some [⟨"chr1", 100, 102, some 500000000⟩] := by
  constructor
  · intro entries lookup sizes res out h
    exact chain_transfer _ _ (clip_forall₂ sizes _ _ h) (mergeRuns_chain _)
  · norm_num [export_insertions_as_bigwig, aggregateCounts, addCount, makeBedGraph, mergeRuns,
      clipLastPerChrom, clipOne, lookupSize, norm_factor, f32div, sameKey, f32eq]

/-- C5 witness: the merge-maximality invariant at the concrete scenario. -/
theorem c5_merge_maximality_witness :
    List.Chain' (fun a b => sameKey a b = false)
      [(⟨"chr1", 100, 102, some 500000000⟩ : BedGraphF)] :=
  c5_merge_maximality.1 [(0, 1), (1, 1)]
    (fun n => if n = 0 then ("chr1", 100) else ("chr1", 101)) [("chr1", 1000)] 1 _
    c5_merge_maximality.2

/-- C8: in every successful coverage run, every output record's value is some
accumulated bin count divided (in the modelled `f32` arithmetic) by the
normalization factor `(total_count / 1e6) * (resolution / 1e3)`; and the
single-bin scenario (one entry at bin 3 with count 5, resolution 1, bin 3 at
`chr1:300`, `chr1` of length 1000) yields exactly
`CoverageInterval("chr1", 300, 301, 5 / norm)` with
`norm = (5/1e6)*(1/1e3)`, i.e. value `1e9`. -/
theorem c8_normalization_factor :
    (∀ entries lookup sizes res out,
      export_insertions_as_bigwig entries lookup sizes res = some out →
      ∀ x ∈ out, ∃ kv ∈ aggregateCounts entries res,
        x.value = f32div (kv.2 : ℚ)
          ((((aggregateCounts entries res).map Prod.snd).sum : ℚ) / 1000000 *
            ((res : ℚ) / 1000))) ∧
    export_insertions_as_bigwig [(3, 5)] (fun n => if n = 3 then ("chr1", 300) else ("chr0", 0))
        [("chr1", 1000)] 1 = some [⟨"chr1", 300, 301, some 1000000000⟩] ∧
    norm_factor 5 1 = 5 / 1000000 * (1 / 1000) ∧
    f32div 5 (norm_factor 5 1) = some 1000000000 := by
  refine ⟨?_, ?_, rfl, ?_⟩
  · intro entries lookup sizes res out hout x hx
    obtain ⟨y, hy, hrel⟩ := forall₂_mem_right _ _ (clip_forall₂ sizes _ _ hout) x hx
    obtain ⟨z, hz, hzc, hzs, hzv⟩ := mergeRuns_mem _ y hy
    obtain ⟨kv, hkv, hval⟩ := makeBedGraph_mem _ _ _ _ z hz
    exact ⟨kv, hkv, by rw [← hrel.2, ← hzv, hval]; simp [norm_factor]⟩
  · norm_num [export_insertions_as_bigwig, aggregateCounts, addCount, makeBedGraph, mergeRuns,
      clipLastPerChrom, clipOne, lookupSize, norm_factor, f32div, sameKey, f32eq]
  · norm_num [f32div, norm_factor]

/-- C8 witness: the value guarantee extracted at the single-bin scenario. -/
theorem c8_normalization_factor_witness :
    ∃ kv ∈ aggregateCounts [(3, 5)] 1,
      (⟨"chr1", 300, 301, some 1000000000⟩ : BedGraphF).value =
        f32div (kv.2 : ℚ)
          ((((aggregateCounts [(3, 5)] 1).map Prod.snd).sum : ℚ) / 1000000 *
            ((1 : ℚ) / 1000)) :=
  c8_normalization_factor.1 [(3, 5)] (fun n => if n = 3 then ("chr1", 300) else ("chr0", 0))
    [("chr1", 1000)] 1 _ c8_normalization_factor.2.1 _ (by simp)

theorem cellWrites_length (barcodes group_by active : List String) (idx : ℕ)
    (cell : List Event) :
    (cellWrites barcodes group_by active idx cell).length =
      if group_by.getD idx "" ∈ active then (cell.map (fun e => e.value)).sum else 0 := by
  simp only [cellWrites]
  by_cases h : group_by.getD idx "" ∈ active
  · rw [if_pos h, if_pos h]
    simp [List.length_flatMap, Function.comp_def]
  · rw [if_neg h, if_neg h]
    rfl

theorem batchWrites_length (barcodes group_by active : List String) :
    ∀ (cells : List (List Event)) (idx : ℕ),
      (batchWrites barcodes group_by active idx cells).length =
        ((cells.enumFrom idx).map (fun p =>
          if group_by.getD p.1 "" ∈ active then (p.2.map (fun e => e.value)).sum else 0)).sum := by
  intro cells
  induction cells with
  | nil => intro idx; simp [batchWrites]
  | cons c cs ih => intro idx; simp [batchWrites, cellWrites_length, ih]

theorem enumFrom_append_split {α : Type} (l1 l2 : List α) :
    ∀ n, (l1 ++ l2).enumFrom n = l1.enumFrom n ++ l2.enumFrom (n + l1.length) := by
  induction l1 with
  | nil => intro n; simp
  | cons a t ih =>
    intro n
    have h : n + (t.length + 1) = n + 1 + t.length := by omega
    simp only [List.cons_append, List.enumFrom_cons, ih (n + 1), List.length_cons, h]

theorem bedWritesFrom_length (barcodes group_by active : List String) :
    ∀ (batches : List (List (List Event))) (accum : ℕ),
      (bedWritesFrom barcodes group_by active accum batches).length =
        ((batches.flatten.enumFrom accum).map (fun p =>
          if group_by.getD p.1 "" ∈ active then (p.2.map (fun e => e.value)).sum else 0)).sum := by
  intro batches
  induction batches with
  | nil => intro accum; simp [bedWritesFrom]
  | cons b bs ih =>
    intro accum
    simp [bedWritesFrom, batchWrites_length, ih, enumFrom_append_split]

/-- C6: for aligned barcode and group arrays, the total number of BED lines
written across all groups equals the sum, over all cells whose group owns an
active stream, of the counts of that cell's events (each event expands into
`count` identical lines). -/
theorem c6_total_line_count (batches : List (List (List Event)))
    (barcodes group_by : List String) (selections : Option (List String))
    (h1 : batches.flatten.length = barcodes.length)
    (h2 : barcodes.length = group_by.length) :
    (export_bed_writes batches barcodes group_by selections).length =
      ((batches.flatten.enum).map (fun p =>
        if group_by.getD p.1 "" ∈ activeGroups group_by selections
        then (p.2.map (fun e => e.value)).sum else 0)).sum := by
  simpa [export_bed_writes, List.enum] using
    bedWritesFrom_length barcodes group_by (activeGroups group_by selections) batches 0

/-- C6 witness: two batches of one cell each, only group `"g1"` selected; the
two lines written all come from the first cell's single count-2 event. -/
theorem c6_total_line_count_witness :
    ([[[(⟨"chr1", 0, 1, 2⟩ : Event)]], [[⟨"chr1", 5, 6, 3⟩]]] :
        List (List (List Event))).flatten.length = (["b1", "b2"] : List String).length ∧
    (["b1", "b2"] : List String).length = (["g1", "g2"] : List String).length ∧
    (export_bed_writes [[[⟨"chr1", 0, 1, 2⟩]], [[⟨"chr1", 5, 6, 3⟩]]] ["b1", "b2"]
        ["g1", "g2"] (some ["g1"])).length =
      ((([[[(⟨"chr1", 0, 1, 2⟩ : Event)]], [[⟨"chr1", 5, 6, 3⟩]]] :
          List (List (List Event))).flatten.enum).map (fun p =>
        if (["g1", "g2"] : List String).getD p.1 "" ∈ activeGroups ["g1", "g2"] (some ["g1"])
        then (p.2.map (fun e => e.value)).sum else 0)).sum :=
  ⟨rfl, rfl, c6_total_line_count [[[⟨"chr1", 0, 1, 2⟩]], [[⟨"chr1", 5, 6, 3⟩]]] ["b1", "b2"]
    ["g1", "g2"] (some ["g1"]) rfl rfl⟩

theorem cellWrites_name (group_by active : List String) (idx : ℕ) (cell : List Event)
    (p : String × BedLine) (hp : p ∈ cellWrites group_by group_by active idx cell) :
    p.2.name = p.1 := by
  simp only [cellWrites] at hp
  by_cases h : group_by.getD idx "" ∈ active
  · rw [if_pos h] at hp
    simp only [List.mem_flatMap, List.mem_replicate] at hp
    obtain ⟨e, he, hne, rfl⟩ := hp
    rfl
  · rw [if_neg h] at hp
    simp at hp

theorem batchWrites_name (group_by active : List String) :
    ∀ (cells : List (List Event)) (idx : ℕ) (p : String × BedLine),
      p ∈ batchWrites group_by group_by active idx cells → p.2.name = p.1 := by
  intro cells
  induction cells with
  | nil => intro idx p hp; simp [batchWrites] at hp
  | cons c cs ih =>
    intro idx p hp
    rw [batchWrites] at hp
    rcases List.mem_append.mp hp with h | h
    · exact cellWrites_name group_by active idx c p h
    · exact ih (idx + 1) p h

theorem bedWritesFrom_name (group_by active : List String) :
    ∀ (batches : List (List (List Event))) (accum : ℕ) (p : String × BedLine),
      p ∈ bedWritesFrom group_by group_by active accum batches → p.2.name = p.1 := by
  intro batches
  induction batches with
  | nil => intro accum p hp; simp [bedWritesFrom] at hp
  | cons b bs ih =>
    intro accum p hp
    rw [bedWritesFrom] at hp
    rcases List.mem_append.mp hp with h | h
    · exact batchWrites_name group_by active b accum p h
    · exact ih (accum + b.length) p h

/-- C9: `call_peaks` passes the `group_by` array as both the `barcodes` and
the `group_by` argument of `export_bed`, so in the BED files it materializes
the fourth (name) column of every written line equals the group label of the
stream that receives the line — the cell's group — not the cell's barcode. -/
theorem c9_name_column_is_group_label (batches : List (List (List Event)))
    (group_by : List String) (selections : Option (List String)) (p : String × BedLine)
    (hp : p ∈ export_bed_writes batches (call_peaks_export_bed_args group_by).1
        (call_peaks_export_bed_args group_by).2 selections) :
    p.2.name = p.1 := by
  simp only [call_peaks_export_bed_args, export_bed_writes] at hp
  exact bedWritesFrom_name group_by (activeGroups group_by selections) batches 0 p hp

/-- C9 witness: a one-cell stream exported the way `call_peaks` does; the
line written for group `"gA"` carries `"gA"` in its name column. -/
theorem c9_name_column_is_group_label_witness :
    (("gA", ⟨"chr1", 0, 1, "gA"⟩) : String × BedLine).2.name =
      (("gA", ⟨"chr1", 0, 1, "gA"⟩) : String × BedLine).1 :=
  c9_name_column_is_group_label [[[⟨"chr1", 0, 1, 1⟩]]] ["gA"] none
    ("gA", ⟨"chr1", 0, 1, "gA"⟩) (by decide)

theorem create_not_write (a : FileAction) (h : a.isCreate = true) : a.isWrite = false := by
  cases a <;> simp_all [FileAction.isCreate, FileAction.isWrite]

theorem write_not_create (a : FileAction) (h : a.isWrite = true) : a.isCreate = false := by
  cases a <;> simp_all [FileAction.isCreate, FileAction.isWrite]

/-- C10: `export_insertions_as_bed` creates one output file per active group
(the deduplicated group labels, intersected with the optional selection set)
before consuming any insertion event: the returned mapping enumerates exactly
the active groups with their paths, every active group's file-creation action
is in the trace (independently of whether any line is ever written to it),
and in the trace every creation precedes every write. -/
theorem c10_upfront_file_creation (batches : List (List (List Event)))
    (barcodes group_by : List String) (selections : Option (List String))
    (dir pfx sfx : String) :
    ((export_bed_result group_by selections dir pfx sfx).map Prod.fst =
      activeGroups group_by selections) ∧
    (∀ g, g ∈ activeGroups group_by selections ↔
      (g ∈ group_by ∧ ∀ sel, selections = some sel → g ∈ sel)) ∧
    (∀ g, g ∈ activeGroups group_by selections →
      FileAction.create g (export_bed_path dir pfx sfx g) ∈
        export_bed_trace batches barcodes group_by selections dir pfx sfx) ∧
    (∀ i j,
      i < (export_bed_trace batches barcodes group_by selections dir pfx sfx).length →
      j < (export_bed_trace batches barcodes group_by selections dir pfx sfx).length →
      ((export_bed_trace batches barcodes group_by selections dir pfx sfx).getD i
        default).isCreate = true →
      ((export_bed_trace batches barcodes group_by selections dir pfx sfx).getD j
        default).isWrite = true →
      i < j) := by
  refine ⟨?_, ?_, ?_, ?_⟩
  · simp [export_bed_result, List.map_map, Function.comp_def]
  · intro g
    cases selections with
    | none => simp [activeGroups]
    | some sel => simp [activeGroups, List.mem_filter]
  · intro g hg
    exact List.mem_append_left _ (List.mem_map_of_mem _ hg)
  · intro i j hi hj hci hwj
    set A := (activeGroups group_by selections).map
      (fun g => FileAction.create g (export_bed_path dir pfx sfx g)) with hA
    set B := (export_bed_writes batches barcodes group_by selections).map
      (fun w => FileAction.write w.1 w.2) with hB
    have htr : export_bed_trace batches barcodes group_by selections dir pfx sfx = A ++ B := rfl
    rw [htr] at hi hj hci hwj
    have hAcreate : ∀ a ∈ A, a.isCreate = true := by
      intro a ha
      rw [hA] at ha
      obtain ⟨g, _, rfl⟩ := List.mem_map.mp ha
      rfl
    have hBwrite : ∀ a ∈ B, a.isWrite = true := by
      intro a ha
      rw [hB] at ha
      obtain ⟨w, _, rfl⟩ := List.mem_map.mp ha
      rfl
    have hiA : i < A.length := by
      by_contra hge
      push_neg at hge
      have hjB : i - A.length < B.length := by
        rw [List.length_append] at hi
        omega
      have : (A ++ B).getD i default = B.getD (i - A.length) default := by
        rw [List.getD_eq_getElem?_getD, List.getD_eq_getElem?_getD,
          List.getElem?_append_right hge]
      rw [this, List.getD_eq_getElem _ _ hjB] at hci
      have hmem := List.getElem_mem hjB
      have := create_not_write _ hci
      rw [hBwrite _ hmem] at this
      cases this
    have hjA : A.length ≤ j := by
      by_contra hlt
      push_neg at hlt
      have : (A ++ B).getD j default = A.getD j default := by
        rw [List.getD_eq_getElem?_getD, List.getD_eq_getElem?_getD,
          List.getElem?_append_left hlt]
      rw [this, List.getD_eq_getElem _ _ hlt] at hwj
      have hmem := List.getElem_mem hlt
      have := write_not_create _ hwj
      rw [hAcreate _ hmem] at this
      cases this
    omega

/-- C10 witness: the creation action for the only group is in the trace even
though the insertion stream is empty and no line is ever written. -/
theorem c10_upfront_file_creation_witness :
    FileAction.create "a" (export_bed_path "d" "x" ".bed" "a") ∈
      export_bed_trace [] [] ["a"] none "d" "x" ".bed" :=
  (c10_upfront_file_creation [] [] ["a"] none "d" "x" ".bed").2.2.1 "a" (by decide)
